import Mathlib

set_option linter.unusedVariables false

/-! # Formal model of the BrainVault agent task orchestrator

Shallow embedding of `src/backend/src/core/agent_orchestrator.rs`.
The orchestrator state (agent registry plus task store) becomes an explicit
record; every Rust method becomes a pure Lean function from state to state
paired with its return value.  `Uuid::new_v4()` fresh task ids are modelled
by a monotone counter held in the state (the properties below depend only on
freshness of the generated ids), wall-clock timestamps are passed in as an
explicit `now` parameter, and the `tokio` mutexes disappear because each
modelled operation is one critical section over the store it touches. -/

namespace BrainVault

inductive AgentType where
  | Researcher
  | Analyst
  | Coder
  | Reviewer
  | Manager
  | Ingestor
deriving DecidableEq

inductive TaskStatus where
  | Pending
  | InProgress
  | Executing
  | Completed
  | Failed
deriving DecidableEq

structure AuditLogEntry where
  timestamp : Nat
  agent_id : Option String
  action : String
  details : String
deriving DecidableEq

structure Task where
  id : Nat
  description : String
  status : TaskStatus
  assigned_agent_id : Option String
  preferred_agent_type : Option AgentType
  result : Option String
  audit_log : List AuditLogEntry
deriving DecidableEq

structure AgentProfile where
  id : String
  name : String
  agent_type : AgentType
  capabilities : List String
deriving DecidableEq

/-- `Task::add_log`: push one audit entry; the timestamp comes from the
explicit clock parameter. -/
def Task.addLog (t : Task) (now : Nat) (agent_id : Option String)
    (action : String) (details : String) : Task :=
  { t with audit_log := t.audit_log ++ [⟨now, agent_id, action, details⟩] }

/-- The mutable state of `AgentOrchestrator`: the two keyed collections
(`agents`, `tasks`), modelled as lists in insertion order, plus the fresh-id
counter standing in for the UUID generator. -/
structure OrchState where
  agents : List AgentProfile
  tasks : List Task
  nextId : Nat
deriving DecidableEq

def initState : OrchState := ⟨[], [], 0⟩

def lookupTask (s : OrchState) (id : Nat) : Option Task :=
  s.tasks.find? (fun t => t.id == id)

def updateTask (s : OrchState) (id : Nat) (f : Task → Task) : OrchState :=
  { s with tasks := s.tasks.map (fun t => if t.id == id then f t else t) }

/-- `register_agent`: keyed upsert into the agent registry. -/
def register_agent (s : OrchState) (p : AgentProfile) : OrchState :=
  if s.agents.any (fun q => q.id == p.id) then
    { s with agents := s.agents.map (fun q => if q.id == p.id then p else q) }
  else
    { s with agents := s.agents ++ [p] }

/-- The task record built by `submit_task` before insertion: `Pending`,
unassigned, no result, and the single `SUBMITTED` audit entry. -/
def submittedTask (id : Nat) (now : Nat) (description : String)
    (agent_type : Option AgentType) : Task :=
  { id := id
    description := description
    status := .Pending
    assigned_agent_id := none
    preferred_agent_type := agent_type
    result := none
    audit_log := [⟨now, none, "SUBMITTED", "Task submitted: " ++ description⟩] }

/-- `submit_task`: mint a fresh id, insert the new `Pending` task, return
the id. -/
def submit_task (s : OrchState) (now : Nat) (description : String)
    (agent_type : Option AgentType) : OrchState × Nat :=
  ({ s with
      tasks := s.tasks ++ [submittedTask s.nextId now description agent_type]
      nextId := s.nextId + 1 },
   s.nextId)

/-- The agent-selection step of `assign_task`: first registered agent of the
preferred type, or any registered agent when no type is preferred. -/
def selectAgent (agents : List AgentProfile) (pref : Option AgentType) :
    Option String :=
  match pref with
  | some p => (agents.find? (fun q => q.agent_type == p)).map (fun q => q.id)
  | none => agents.head?.map (fun q => q.id)

/-- The mutation `assign_task` performs on the selected task. -/
def assignUpd (now : Nat) (aid : String) (u : Task) : Task :=
  ({ u with assigned_agent_id := some aid, status := .InProgress }).addLog
    now (some "system") "ASSIGNED" ("Assigned to agent " ++ aid)

/-- `assign_task`: idempotent on already-assigned tasks; otherwise select an
agent, bind it, move to `InProgress` and log `ASSIGNED`; error when no
candidate exists. -/
def assign_task (s : OrchState) (now : Nat) (id : Nat) :
    OrchState × Except String String :=
  match lookupTask s id with
  | none => (s, .error "Task not found")
  | some t =>
    match t.assigned_agent_id with
    | some a => (s, .ok a)
    | none =>
      match selectAgent s.agents t.preferred_agent_type with
      | some aid => (updateTask s id (assignUpd now aid), .ok aid)
      | none => (s, .error "No suitable agents available")

/-- The mutation `complete_task` performs on the addressed task. -/
def completeUpd (now : Nat) (result : String) (t : Task) : Task :=
  ({ t with status := .Completed, result := some result }).addLog
    now t.assigned_agent_id "COMPLETED" ("Task completed with result: " ++ result)

/-- `complete_task`: unconditionally set `Completed`, store the result and
log `COMPLETED`; errors only on an unknown id. -/
def complete_task (s : OrchState) (now : Nat) (id : Nat) (result : String) :
    OrchState × Except String Unit :=
  match lookupTask s id with
  | none => (s, .error "Task not found")
  | some _ => (updateTask s id (completeUpd now result), .ok ())

/-- One pass of the body of `run_agent_loop`: flip every `InProgress` task
with a bound agent to `Executing`. -/
def dispatchMark (t : Task) : Task :=
  match t.status, t.assigned_agent_id with
  | .InProgress, some _ => { t with status := .Executing }
  | _, _ => t

/-- One cycle of `run_agent_loop`: the state after marking, plus the
`(task_id, agent_id)` pairs handed to `process_single_task`. -/
def dispatch_cycle (s : OrchState) : OrchState × List (Nat × String) :=
  ({ s with tasks := s.tasks.map dispatchMark },
   s.tasks.filterMap (fun t =>
     match t.status, t.assigned_agent_id with
     | .InProgress, some a => some (t.id, a)
     | _, _ => none))

-- ### Small-step relation over the orchestrator operations

/-- One orchestrator operation, with arbitrary arguments.  `g` guards which
`complete_task` calls may fire: the public API imposes no restriction
(`completeAnyGuard`), while the code's only internal caller,
`process_single_task`, completes exclusively tasks the dispatch loop just
launched — restrictions modelled by the other guards below. -/
inductive StepG (g : OrchState → Nat → Prop) : OrchState → OrchState → Prop where
  | register (s : OrchState) (p : AgentProfile) : StepG g s (register_agent s p)
  | submit (s : OrchState) (now : Nat) (d : String) (pref : Option AgentType) :
      StepG g s (submit_task s now d pref).1
  | assign (s : OrchState) (now : Nat) (id : Nat) :
      StepG g s (assign_task s now id).1
  | dispatch (s : OrchState) : StepG g s (dispatch_cycle s).1
  | complete (s : OrchState) (now : Nat) (id : Nat) (r : String) (h : g s id) :
      StepG g s (complete_task s now id r).1

/-- States reachable from the empty orchestrator by guarded operations. -/
inductive ReachG (g : OrchState → Nat → Prop) : OrchState → Prop where
  | init : ReachG g initState
  | step {s s' : OrchState} : ReachG g s → StepG g s s' → ReachG g s'

/-- No restriction: `complete_task` on any id, as its signature allows. -/
def completeAnyGuard : OrchState → Nat → Prop := fun _ _ => True

/-- `complete_task` only on tasks that have an assigned agent. -/
def completeAssignedGuard (s : OrchState) (id : Nat) : Prop :=
  ∀ t ∈ s.tasks, t.id = id → t.assigned_agent_id ≠ none

/-- `complete_task` only on tasks in `Executing` status (the discipline of
`process_single_task`, which completes only tasks the loop launched). -/
def completeExecutingGuard (s : OrchState) (id : Nat) : Prop :=
  ∀ t ∈ s.tasks, t.id = id → t.status = .Executing

/-- The status edges named by the specification's state machine. -/
def statusEdge (a b : TaskStatus) : Prop :=
  (a = .Pending ∧ b = .InProgress) ∨ (a = .InProgress ∧ b = .Executing)
    ∨ (a = .Executing ∧ b = .Completed) ∨ (a = .Executing ∧ b = .Failed)

instance statusEdgeDecidable (a b : TaskStatus) : Decidable (statusEdge a b) := by
  unfold statusEdge
  infer_instance

/-- Well-formedness of the task store: every stored id is below the fresh-id
counter, and the stored ids are pairwise distinct. -/
def idsWF (s : OrchState) : Prop :=
  (∀ t ∈ s.tasks, t.id < s.nextId) ∧ (s.tasks.map Task.id).Nodup

/-- Formalization of the audit contract as claimed: submission, successful
assignment, the dispatch loop's `InProgress → Executing` flip, and
completion each append exactly one audit entry to the mutated task. -/
def auditOneEntryClaim : Prop :=
  (∀ (s : OrchState) (now : Nat) (d : String) (pref : Option AgentType),
    (submittedTask s.nextId now d pref).audit_log.length = 1)
  ∧ (∀ (s : OrchState) (now id : Nat) (t0 : Task) (aid : String),
      lookupTask s id = some t0 → t0.assigned_agent_id = none →
      (assign_task s now id).2 = .ok aid →
      ∃ t', lookupTask (assign_task s now id).1 id = some t'
        ∧ t'.audit_log.length = t0.audit_log.length + 1)
  ∧ (∀ (s : OrchState) (id : Nat) (t0 : Task),
      lookupTask s id = some t0 → t0.status = .InProgress →
      t0.assigned_agent_id ≠ none →
      ∃ t', lookupTask (dispatch_cycle s).1 id = some t'
        ∧ t'.audit_log.length = t0.audit_log.length + 1)
  ∧ (∀ (s : OrchState) (now id : Nat) (r : String) (t0 : Task),
      lookupTask s id = some t0 →
      ∃ t', lookupTask (complete_task s now id r).1 id = some t'
        ∧ t'.audit_log.length = t0.audit_log.length + 1)

-- ### Character-list string utilities
-- Structural reimplementations of the string operations the strategies use
-- (`str::lines`, `char::split`, `str::trim`), written over `List Char` so
-- that the kernel can evaluate them on concrete inputs.

/-- Split a character list at every occurrence of `sep` (Rust
`str::split(sep)`): always at least one piece, empty pieces kept. -/
def splitChar (sep : Char) : List Char → List (List Char)
  | [] => [[]]
  | c :: cs =>
    if c = sep then [] :: splitChar sep cs
    else
      match splitChar sep cs with
      | [] => [[c]]
      | h :: t => (c :: h) :: t

/-- Rust `str::trim` (drop leading and trailing whitespace). -/
def trimChars (l : List Char) : List Char :=
  ((l.dropWhile Char.isWhitespace).reverse.dropWhile Char.isWhitespace).reverse

def splitOnChar (sep : Char) (s : String) : List String :=
  (splitChar sep s.data).map String.mk

def trimStr (s : String) : String :=
  String.mk (trimChars s.data)

/-- Rust `str::lines`, up to the immaterial trailing empty segment after a
final newline (such a segment never parses as a `PLAN`/`ENTITY`/`REL` line,
so every consumer below is unaffected). -/
def linesOf (s : String) : List String :=
  splitOnChar '\n' s

-- ### Manager strategy (`execute_agent_logic`, `AgentType::Manager` arm)

/-- The `match agent_str` table: unknown tags default to `Researcher`. -/
def agentTypeOfPlanTag (s : String) : AgentType :=
  if s = "Researcher" then .Researcher
  else if s = "Analyst" then .Analyst
  else if s = "Coder" then .Coder
  else .Researcher

/-- Parse one plan line: `split('|')`, at least 3 parts, first part trims to
`PLAN`; yields the target agent type and the trimmed description. -/
def parsePlanLine (line : String) : Option (AgentType × String) :=
  match (splitChar '|' line.data).map String.mk with
  | p0 :: p1 :: p2 :: _ =>
    if trimStr p0 = "PLAN" then some (agentTypeOfPlanTag (trimStr p1), trimStr p2)
    else none
  | _ => none

/-- All valid plan lines of the LLM planning response. -/
def manager_plan (response : String) : List (AgentType × String) :=
  (linesOf response).filterMap parsePlanLine

/-- The spawn phase of the manager strategy: for each plan line, submit a
sub-task with that preferred type and immediately assign it, accumulating
the sub-task ids in order. -/
def manager_spawn (s : OrchState) (now : Nat) (plan : List (AgentType × String)) :
    OrchState × List Nat :=
  plan.foldl
    (fun acc p =>
      let sub := submit_task acc.1 now p.2 (some p.1)
      ((assign_task sub.1 now sub.2).1, acc.2 ++ [sub.2]))
    (s, [])

/-- One pass of the manager monitor body over the sub-task snapshots
`viewk` (the `get_task` results at one polling iteration): the `all_done`
flag together with the freshly rebuilt results buffer.  As in the source, a
missing sub-task neither blocks `all_done` nor contributes a line. -/
def subtaskCheck (viewk : Nat → Option Task) (sids : List Nat) :
    Bool × List String :=
  sids.foldl
    (fun acc sid =>
      match viewk sid with
      | some t =>
        match t.status with
        | .Completed =>
          (acc.1, acc.2 ++ ["Task " ++ toString sid ++ ": " ++ t.result.getD ""])
        | .Failed => (acc.1, acc.2 ++ ["Task " ++ toString sid ++ ": Failed"])
        | _ => (false, acc.2)
      | none => acc)
    (true, [])

def allTerminal (viewk : Nat → Option Task) (sids : List Nat) : Bool :=
  (subtaskCheck viewk sids).1

def resultsAt (viewk : Nat → Option Task) (sids : List Nat) : List String :=
  (subtaskCheck viewk sids).2

inductive WaitOutcome where
  | completedResults (results : List String)
  | timedOut
deriving DecidableEq

/-- The manager polling wait.  Iteration `k` runs at elapsed time `2·k`
seconds (the loop sleeps 2 seconds between iterations); the source checks
`start.elapsed().as_secs() > 300` before re-reading the sub-tasks, so the
wait times out at the first iteration with `2·k > 300`, i.e. `k = 151`.
The remaining-iteration count `151 - k` is the structural fuel. -/
def manager_wait_from (view : Nat → Nat → Option Task) (sids : List Nat) :
    Nat → Nat → WaitOutcome
  | 0, _ => .timedOut
  | fuel + 1, k =>
    if allTerminal (view k) sids then .completedResults (resultsAt (view k) sids)
    else manager_wait_from view sids fuel (k + 1)

def manager_wait (view : Nat → Nat → Option Task) (sids : List Nat)
    (k : Nat) : WaitOutcome :=
  manager_wait_from view sids (151 - k) k

inductive ManagerOutcome where
  | noSubtasks
  | timedOut
  | synthesized (results : List String)
deriving DecidableEq

/-- The manager arm of `execute_agent_logic`: spawn the planned sub-tasks;
with zero sub-tasks return immediately, otherwise poll.  `view k sid` is the
`get_task` snapshot of sub-task `sid` at polling iteration `k`, abstracting
the concurrent progress of the spawned executions. -/
def manager_logic (s : OrchState) (now : Nat) (planResponse : String)
    (view : Nat → Nat → Option Task) : OrchState × ManagerOutcome :=
  let spawned := manager_spawn s now (manager_plan planResponse)
  if spawned.2 = [] then (spawned.1, .noSubtasks)
  else
    (spawned.1,
     match manager_wait view spawned.2 0 with
     | .timedOut => .timedOut
     | .completedResults rs => .synthesized rs)

/-- The result string the manager arm returns for each outcome; `synth` is
the LLM synthesis response of the success path. -/
def manager_result_text (synth : String) : ManagerOutcome → String
  | .noSubtasks => "No subtasks generated. Task failed."
  | .timedOut => "Manager timed out waiting for subtasks."
  | .synthesized _ => synth

-- ### Ingestor strategy (`execute_agent_logic`, `AgentType::Ingestor` arm)

/-- Split off everything before the first occurrence of `sep`: the piece
before it, plus the remainder when a separator was found. -/
def splitFirst (sep : Char) : List Char → List Char × Option (List Char)
  | [] => ([], none)
  | c :: cs =>
    if c = sep then ([], some cs)
    else
      let r := splitFirst sep cs
      (c :: r.1, r.2)

/-- Rust `str::splitn(3, sep)`: at most three pieces, the last keeping any
further separators. -/
def splitn3 (sep : Char) (l : List Char) : List (List Char) :=
  match splitFirst sep l with
  | (a, none) => [a]
  | (a, some rest1) =>
    match splitFirst sep rest1 with
    | (b, none) => [a, b]
    | (b, some rest2) => [a, b, rest2]

/-- The Ingestor arm's parse of the optional `INGEST_FILE|<doc_id>|<content>`
description encoding: on any other shape the whole description is the
content and the doc id is `unknown`. -/
def ingestor_parse (description : String) : String × String :=
  if "INGEST_FILE|".data.isPrefixOf description.data then
    match splitn3 '|' description.data with
    | [_, b, c] => (String.mk b, String.mk c)
    | _ => ("unknown", description)
  else ("unknown", description)

/-- Rust `slice::chunks n` (for `n > 0`), with the list length as structural
fuel — the fuel never runs out because `drop n` strictly shrinks the list. -/
def chunksOfAux {α : Type _} (n : Nat) : Nat → List α → List (List α)
  | _, [] => []
  | 0, _ :: _ => []
  | fuel + 1, c :: cs => (c :: cs).take n :: chunksOfAux n fuel ((c :: cs).drop n)

def chunksOf {α : Type _} (n : Nat) (l : List α) : List (List α) :=
  chunksOfAux n l.length l

/-- UTF-8 bytes of a string, exactly the data of `String.toUTF8`; Rust
`String::len` and `as_bytes` work on these bytes. -/
def strBytes (s : String) : List UInt8 :=
  s.data.flatMap String.utf8EncodeChar

/-- The Ingestor chunking: content strictly above 3000 bytes is split into
2000-byte chunks, anything else is processed as a single chunk. -/
def ingestor_chunks (bs : List UInt8) : List (List UInt8) :=
  if 3000 < bs.length then chunksOf 2000 bs else [bs]

/-- Count the `ENTITY` and `REL` lines (at least 4 `|`-separated parts,
tag in the first part) of one extraction response. -/
def extractionCounts (response : String) : Nat × Nat :=
  (linesOf response).foldl
    (fun acc line =>
      match (splitChar '|' line.data).map String.mk with
      | p0 :: _ :: _ :: _ :: _ =>
        if trimStr p0 = "ENTITY" then (acc.1 + 1, acc.2)
        else if trimStr p0 = "REL" then (acc.1, acc.2 + 1)
        else acc
      | _ => acc)
    (0, 0)

/-- The aggregate entity/relationship counts over all chunks; `llm i` is
the extraction response for chunk `i`. -/
def ingestor_totals (llm : Nat → String) (numChunks : Nat) : Nat × Nat :=
  (List.range numChunks).foldl
    (fun acc i =>
      (acc.1 + (extractionCounts (llm i)).1, acc.2 + (extractionCounts (llm i)).2))
    (0, 0)

/-- The Ingestor arm's result string. -/
def ingestor_result (doc_id : String)
    (totalEntities totalRels chunkCount : Nat) : String :=
  "Ingestion Complete for " ++ doc_id ++ ". Extracted " ++ toString totalEntities
    ++ " entities and " ++ toString totalRels ++ " correlations across "
    ++ toString chunkCount ++ " graph chunks."

/-- The Ingestor arm end to end: parse, chunk, extract per chunk (without a
graph manager the extraction loop is skipped and the totals stay 0), and
report the aggregate counts. -/
def ingestor_logic (hasGraph : Bool) (llm : Nat → String)
    (description : String) : String :=
  let parsed := ingestor_parse description
  let chunks := ingestor_chunks (strBytes parsed.2)
  let totals := if hasGraph then ingestor_totals llm chunks.length else (0, 0)
  ingestor_result parsed.1 totals.1 totals.2 chunks.length

-- ### Concrete example states used by witnesses and counterexamples

/-- An already-assigned task, as left by `assign_task`. -/
def taskAssignedEx : Task :=
  { id := 0, description := "d", status := .InProgress,
    assigned_agent_id := some "a1", preferred_agent_type := none,
    result := none, audit_log := [] }

def stateAssignedEx : OrchState :=
  { agents := [], tasks := [taskAssignedEx], nextId := 1 }

/-- An unassigned `Pending` task preferring a `Coder`. -/
def taskPrefCoderEx : Task :=
  { id := 0, description := "d", status := .Pending,
    assigned_agent_id := none, preferred_agent_type := some .Coder,
    result := none, audit_log := [] }

/-- A registered `Researcher` agent. -/
def researcherEx : AgentProfile :=
  { id := "r1", name := "R", agent_type := .Researcher, capabilities := [] }

def statePrefCoderEx : OrchState :=
  { agents := [researcherEx], tasks := [taskPrefCoderEx], nextId := 1 }

/-- A sub-task snapshot that is still running. -/
def taskExecEx : Task :=
  { id := 1, description := "s", status := .Executing,
    assigned_agent_id := some "a1", preferred_agent_type := none,
    result := none, audit_log := [] }

/-- The same sub-task once completed. -/
def taskDoneEx : Task :=
  { id := 1, description := "s", status := .Completed,
    assigned_agent_id := some "a1", preferred_agent_type := none,
    result := some "r", audit_log := [] }

/-- Snapshots in which the sub-task completes at polling iteration 1. -/
def viewFlipEx : Nat → Nat → Option Task :=
  fun k _ => if k = 0 then some taskExecEx else some taskDoneEx

/-- Snapshots in which the sub-task never reaches a terminal status. -/
def viewStuckEx : Nat → Nat → Option Task :=
  fun _ _ => some taskExecEx

/-- Reachable chain: register a `Researcher`, submit a task, assign it,
run one dispatch cycle. -/
def sRegEx : OrchState := register_agent initState researcherEx

def sSubEx : OrchState := (submit_task sRegEx 0 "d" none).1

def sAsgEx : OrchState := (assign_task sSubEx 3 0).1

def sDispEx : OrchState := (dispatch_cycle sAsgEx).1

/-- The task stored in `sSubEx`. -/
def tSubEx : Task :=
  { id := 0, description := "d", status := .Pending,
    assigned_agent_id := none, preferred_agent_type := none,
    result := none,
    audit_log := [⟨0, none, "SUBMITTED", "Task submitted: d"⟩] }

/-- The task stored in `sAsgEx`. -/
def tAsgEx : Task :=
  { id := 0, description := "d", status := .InProgress,
    assigned_agent_id := some "r1", preferred_agent_type := none,
    result := none,
    audit_log := [⟨0, none, "SUBMITTED", "Task submitted: d"⟩,
                  ⟨3, some "system", "ASSIGNED", "Assigned to agent r1"⟩] }

/-- The task stored in `sDispEx`. -/
def tDispEx : Task :=
  { id := 0, description := "d", status := .Executing,
    assigned_agent_id := some "r1", preferred_agent_type := none,
    result := none,
    audit_log := [⟨0, none, "SUBMITTED", "Task submitted: d"⟩,
                  ⟨3, some "system", "ASSIGNED", "Assigned to agent r1"⟩] }

/-- Reachable chain violating the spec's state machine: submit, then
complete the still-`Pending`, never-assigned task. -/
def sPendingEx : OrchState := (submit_task initState 0 "d" none).1

def sCompletedNoAgentEx : OrchState := (complete_task sPendingEx 5 0 "r").1

/-- The task stored in `sPendingEx`. -/
def tPendingEx : Task :=
  { id := 0, description := "d", status := .Pending,
    assigned_agent_id := none, preferred_agent_type := none,
    result := none,
    audit_log := [⟨0, none, "SUBMITTED", "Task submitted: d"⟩] }

/-- The task stored in `sCompletedNoAgentEx`: `Completed` with no agent. -/
def tCompletedNoAgentEx : Task :=
  { id := 0, description := "d", status := .Completed,
    assigned_agent_id := none, preferred_agent_type := none,
    result := some "r",
    audit_log := [⟨0, none, "SUBMITTED", "Task submitted: d"⟩,
                  ⟨5, none, "COMPLETED", "Task completed with result: r"⟩] }

/-- `taskAssignedEx` after `complete_task _ 9 0 "res"`. -/
def taskCompletedEx : Task :=
  { id := 0, description := "d", status := .Completed,
    assigned_agent_id := some "a1", preferred_agent_type := none,
    result := some "res",
    audit_log := [⟨9, some "a1", "COMPLETED", "Task completed with result: res"⟩] }

-- ### Theorems

theorem find?_id_map_update (l : List Task) (id : Nat) (f : Task → Task)
    (hpres : ∀ u, (f u).id = u.id) :
    (l.map (fun t => if t.id == id then f t else t)).find? (fun t => t.id == id)
      = (l.find? (fun t => t.id == id)).map f := by
  induction l with
  | nil => rfl
  | cons t l ih =>
    by_cases h : t.id = id
    · have hb : (t.id == id) = true := by simp [h]
      have hfb : ((f t).id == id) = true := by simp [hpres t, h]
      have hhead : (if t.id == id then f t else t) = f t := by simp [hb]
      simp only [List.map_cons]
      rw [hhead]
      simp only [List.find?]
      rw [hfb, hb]
      rfl
    · have hb : (t.id == id) = false := by simp [h]
      have hhead : (if t.id == id then f t else t) = t := by simp [hb]
      simp only [List.map_cons]
      rw [hhead]
      simp only [List.find?]
      rw [hb]
      exact ih

theorem lookup_updateTask (s : OrchState) (id : Nat) (f : Task → Task)
    (hpres : ∀ u, (f u).id = u.id) :
    lookupTask (updateTask s id f) id = (lookupTask s id).map f :=
  find?_id_map_update s.tasks id f hpres

theorem complete_task_sets_completed (s : OrchState) (now : Nat) (id : Nat)
    (r : String) (t : Task)
    (h : lookupTask (complete_task s now id r).1 id = some t) :
    t.status = .Completed ∧ t.result = some r := by
  rcases hl : lookupTask s id with _ | t0
  · simp only [complete_task, hl] at h
    simp at h
  · simp only [complete_task, hl] at h
    rw [lookup_updateTask s id (completeUpd now r) (fun u => rfl), hl] at h
    simp only [Option.map_some'] at h
    cases h
    exact ⟨rfl, rfl⟩

theorem manager_wait_from_timedOut (view : Nat → Nat → Option Task)
    (sids : List Nat) (hall : ∀ j, allTerminal (view j) sids = false) :
    ∀ fuel k, manager_wait_from view sids fuel k = .timedOut := by
  intro fuel
  induction fuel with
  | zero => intro k; rfl
  | succ n ih => intro k; simp [manager_wait_from, hall k, ih]

theorem manager_wait_timedOut (view : Nat → Nat → Option Task)
    (sids : List Nat) (hall : ∀ j, allTerminal (view j) sids = false) :
    manager_wait view sids 0 = .timedOut :=
  manager_wait_from_timedOut view sids hall _ _

theorem manager_wait_succeeds_aux (view : Nat → Nat → Option Task)
    (sids : List Nat) (k0 : Nat) (hk : k0 ≤ 150)
    (hterm : allTerminal (view k0) sids = true) :
    ∀ d k, k + d = k0 → (∀ j, j < k0 → allTerminal (view j) sids = false) →
      manager_wait view sids k = .completedResults (resultsAt (view k0) sids) := by
  intro d
  induction d with
  | zero =>
    intro k hkk hbefore
    have hk' : k = k0 := by omega
    subst hk'
    unfold manager_wait
    have hfuel : 151 - k = (150 - k) + 1 := by omega
    rw [hfuel]
    simp [manager_wait_from, hterm]
  | succ n ih =>
    intro k hkk hbefore
    have hklt : k < k0 := by omega
    unfold manager_wait
    have hfuel : 151 - k = (150 - k) + 1 := by omega
    rw [hfuel]
    simp only [manager_wait_from]
    rw [hbefore k hklt]
    simp only [Bool.false_eq_true, if_false]
    have h2 := ih (k + 1) (by omega) hbefore
    unfold manager_wait at h2
    have hfuel2 : 151 - (k + 1) = 150 - k := by omega
    rw [hfuel2] at h2
    exact h2

/-- C1: the manager polling wait terminates — it returns the accumulated
sub-task results at the first polling iteration where every sub-task
snapshot is terminal (provided the 300-second ceiling has not elapsed), and
if the sub-tasks never all reach a terminal status it returns `timedOut`
once the ceiling elapses, in which case the manager arm's result is the
timeout narration and `complete_task` still sets the manager task's own
status to `Completed`, never `Failed`. -/
theorem manager_wait_terminates :
    (∀ (view : Nat → Nat → Option Task) (sids : List Nat) (k0 : Nat),
      2 * k0 ≤ 300 → allTerminal (view k0) sids = true →
      (∀ j, j < k0 → allTerminal (view j) sids = false) →
      manager_wait view sids 0 = .completedResults (resultsAt (view k0) sids))
    ∧ (∀ (s : OrchState) (now : Nat) (resp : String) (view : Nat → Nat → Option Task),
        (manager_spawn s now (manager_plan resp)).2 ≠ [] →
        (∀ j, allTerminal (view j) (manager_spawn s now (manager_plan resp)).2 = false) →
        (manager_logic s now resp view).2 = .timedOut)
    ∧ (∀ synth, manager_result_text synth .timedOut
        = "Manager timed out waiting for subtasks.")
    ∧ (∀ (s : OrchState) (now : Nat) (id : Nat) (r : String) (t : Task),
        lookupTask (complete_task s now id r).1 id = some t →
        t.status = .Completed ∧ t.status ≠ .Failed) := by
  refine ⟨?_, ?_, fun _ => rfl, ?_⟩
  · intro view sids k0 hk hterm hbefore
    exact manager_wait_succeeds_aux view sids k0 (by omega) hterm k0 0 (by omega) hbefore
  · intro s now resp view hne hall
    simp [manager_logic, hne, manager_wait_timedOut _ _ hall]
  · intro s now id r t h
    have hc := complete_task_sets_completed s now id r t h
    exact ⟨hc.1, by simp [hc.1]⟩

/-- Witness for C1 at concrete snapshot schedules: a sub-task that turns
`Completed` at iteration 1, a spawn of one sub-task that never terminates,
and a concrete completion. -/
theorem manager_wait_terminates_witness :
    manager_wait viewFlipEx [1] 0 = .completedResults (resultsAt (viewFlipEx 1) [1])
    ∧ (manager_logic initState 0 "PLAN|Coder|do it" viewStuckEx).2 = .timedOut
    ∧ manager_result_text "synth" .timedOut = "Manager timed out waiting for subtasks."
    ∧ (taskCompletedEx.status = .Completed ∧ taskCompletedEx.status ≠ .Failed) :=
  ⟨manager_wait_terminates.1 viewFlipEx [1] 1 (by omega) (by decide)
      (by intro j hj; have hj0 : j = 0 := Nat.lt_one_iff.mp hj; subst hj0; decide),
   manager_wait_terminates.2.1 initState 0 "PLAN|Coder|do it" viewStuckEx
      (by decide) (fun j => rfl),
   manager_wait_terminates.2.2.1 "synth",
   manager_wait_terminates.2.2.2 stateAssignedEx 9 0 "res" taskCompletedEx (by decide)⟩

/-- C7: a manager execution whose plan response parses to zero valid `PLAN`
lines submits no sub-task (the state is untouched), skips the polling wait
and returns the `noSubtasks` outcome, whose narration is the fixed
"No subtasks generated. Task failed." text; completing the manager task
still sets its status to `Completed`, never `Failed`. -/
theorem manager_no_subtasks_spec (s : OrchState) (now : Nat) (resp : String)
    (view : Nat → Nat → Option Task)
    (hplan : manager_plan resp = []) :
    manager_logic s now resp view = (s, .noSubtasks)
    ∧ (∀ synth, manager_result_text synth .noSubtasks
        = "No subtasks generated. Task failed.")
    ∧ (∀ (id : Nat) (r : String) (t : Task),
        lookupTask (complete_task s now id r).1 id = some t →
        t.status = .Completed ∧ t.status ≠ .Failed) := by
  refine ⟨?_, fun _ => rfl, ?_⟩
  · simp [manager_logic, hplan, manager_spawn]
  · intro id r t h
    have hc := complete_task_sets_completed s now id r t h
    exact ⟨hc.1, by simp [hc.1]⟩

/-- Witness for C7: a plan response with no valid `PLAN` line on a concrete
state holding one task. -/
theorem manager_no_subtasks_spec_witness :
    manager_logic stateAssignedEx 9 "think step by step" viewStuckEx
      = (stateAssignedEx, .noSubtasks)
    ∧ manager_result_text "synth" .noSubtasks = "No subtasks generated. Task failed."
    ∧ (taskCompletedEx.status = .Completed ∧ taskCompletedEx.status ≠ .Failed) :=
  have h := manager_no_subtasks_spec stateAssignedEx 9 "think step by step"
    viewStuckEx (by decide)
  ⟨h.1, h.2.1 "synth", h.2.2 0 "res" taskCompletedEx (by decide)⟩

/-- C2: assigning a task that already has an assigned agent returns `Ok`
with that same agent id and leaves the whole orchestrator state (hence the
task, its status and its audit log) unchanged. -/
theorem assign_task_idempotent (s : OrchState) (now : Nat) (id : Nat)
    (t : Task) (a : String)
    (hfind : lookupTask s id = some t)
    (hass : t.assigned_agent_id = some a) :
    assign_task s now id = (s, Except.ok a) := by
  simp [assign_task, hfind, hass]

/-- Witness for C2 at a concrete state. -/
theorem assign_task_idempotent_witness :
    assign_task stateAssignedEx 7 0 = (stateAssignedEx, Except.ok "a1") :=
  assign_task_idempotent stateAssignedEx 7 0 taskAssignedEx "a1" (by decide) rfl

/-- C3: assigning an unassigned task whose preferred type has no registered
agent — even if agents of other types are registered — returns the
no-suitable-agent error (the spec's `NoSuitableAgent`) and leaves the state,
hence the task's `Pending` status, agent binding and audit log, unchanged. -/
theorem assign_task_no_suitable_agent (s : OrchState) (now : Nat) (id : Nat)
    (t : Task) (pref : AgentType)
    (hfind : lookupTask s id = some t)
    (hunass : t.assigned_agent_id = none)
    (hpref : t.preferred_agent_type = some pref)
    (hnone : ∀ p ∈ s.agents, p.agent_type ≠ pref) :
    assign_task s now id = (s, Except.error "No suitable agents available")
      ∧ lookupTask (assign_task s now id).1 id = some t := by
  have hfindagent : s.agents.find? (fun p => p.agent_type == pref) = none := by
    rw [List.find?_eq_none]
    intro p hp
    simpa using hnone p hp
  constructor
  · simp [assign_task, selectAgent, hfind, hunass, hpref, hfindagent]
  · simp [assign_task, selectAgent, hfind, hunass, hpref, hfindagent]

/-- Witness for C3: a `Researcher` is registered but the task prefers a
`Coder`; assignment fails and the task stays `Pending` and unassigned. -/
theorem assign_task_no_suitable_agent_witness :
    assign_task statePrefCoderEx 3 0
      = (statePrefCoderEx, Except.error "No suitable agents available")
    ∧ lookupTask (assign_task statePrefCoderEx 3 0).1 0 = some taskPrefCoderEx :=
  assign_task_no_suitable_agent statePrefCoderEx 3 0 taskPrefCoderEx
    .Coder (by decide) rfl rfl (by decide)

-- ### Per-operation state lemmas

theorem register_agent_tasks (s : OrchState) (p : AgentProfile) :
    (register_agent s p).tasks = s.tasks := by
  unfold register_agent
  split <;> rfl

theorem register_agent_nextId (s : OrchState) (p : AgentProfile) :
    (register_agent s p).nextId = s.nextId := by
  unfold register_agent
  split <;> rfl

theorem submit_task_tasks (s : OrchState) (now : Nat) (d : String)
    (pref : Option AgentType) :
    (submit_task s now d pref).1.tasks
      = s.tasks ++ [submittedTask s.nextId now d pref] := rfl

theorem dispatch_cycle_tasks (s : OrchState) :
    (dispatch_cycle s).1.tasks = s.tasks.map dispatchMark := rfl

theorem mem_updateTask {s : OrchState} {id : Nat} {f : Task → Task} {t' : Task}
    (h : t' ∈ (updateTask s id f).tasks) :
    ∃ u ∈ s.tasks, (u.id = id ∧ t' = f u) ∨ t' = u := by
  rcases List.mem_map.mp h with ⟨u, hu, heq⟩
  refine ⟨u, hu, ?_⟩
  by_cases hc : u.id = id
  · left
    refine ⟨hc, ?_⟩
    simp [hc] at heq
    exact heq.symm
  · right
    simp [hc] at heq
    exact heq.symm

theorem dispatchMark_id (u : Task) : (dispatchMark u).id = u.id := by
  unfold dispatchMark
  cases hs : u.status <;> cases ha : u.assigned_agent_id <;> rfl

theorem dispatchMark_audit (u : Task) :
    (dispatchMark u).audit_log = u.audit_log := by
  unfold dispatchMark
  cases hs : u.status <;> cases ha : u.assigned_agent_id <;> rfl

theorem dispatchMark_spec (u : Task) :
    (u.status = .InProgress ∧ u.assigned_agent_id ≠ none
      ∧ dispatchMark u = { u with status := .Executing })
    ∨ dispatchMark u = u := by
  unfold dispatchMark
  cases hs : u.status <;> cases ha : u.assigned_agent_id <;> simp [hs, ha]

theorem assign_task_state (s : OrchState) (now : Nat) (id : Nat) :
    (assign_task s now id).1 = s
    ∨ ∃ t0 aid, lookupTask s id = some t0 ∧ t0.assigned_agent_id = none
        ∧ selectAgent s.agents t0.preferred_agent_type = some aid
        ∧ (assign_task s now id).1 = updateTask s id (assignUpd now aid) := by
  cases hl : lookupTask s id with
  | none => left; simp [assign_task, hl]
  | some t0 =>
    cases ha : t0.assigned_agent_id with
    | some a => left; simp [assign_task, hl, ha]
    | none =>
      cases hsel : selectAgent s.agents t0.preferred_agent_type with
      | none => left; simp [assign_task, hl, ha, hsel]
      | some aid =>
        right
        exact ⟨t0, aid, rfl, ha, hsel, by simp [assign_task, hl, ha, hsel]⟩

theorem complete_task_state (s : OrchState) (now : Nat) (id : Nat) (r : String) :
    (complete_task s now id r).1 = s
    ∨ (complete_task s now id r).1 = updateTask s id (completeUpd now r) := by
  cases hl : lookupTask s id with
  | none => left; simp [complete_task, hl]
  | some t0 => right; simp [complete_task, hl]

theorem find?_id_map (l : List Task) (id : Nat) (g : Task → Task)
    (hpres : ∀ u, (g u).id = u.id) :
    (l.map g).find? (fun t => t.id == id) = (l.find? (fun t => t.id == id)).map g := by
  induction l with
  | nil => rfl
  | cons t l ih =>
    by_cases h : t.id = id
    · have hb : (t.id == id) = true := by simp [h]
      have hgb : ((g t).id == id) = true := by simp [hpres t, h]
      simp only [List.map_cons, List.find?]
      rw [hgb, hb]
      rfl
    · have hb : (t.id == id) = false := by simp [h]
      have hgb : ((g t).id == id) = false := by simp [hpres t, h]
      simp only [List.map_cons, List.find?]
      rw [hgb, hb]
      exact ih

theorem lookup_dispatch (s : OrchState) (id : Nat) :
    lookupTask (dispatch_cycle s).1 id = (lookupTask s id).map dispatchMark := by
  show (s.tasks.map dispatchMark).find? (fun t => t.id == id)
    = (s.tasks.find? (fun t => t.id == id)).map dispatchMark
  exact find?_id_map s.tasks id dispatchMark dispatchMark_id

theorem lookup_updateTask_ne (s : OrchState) (id id' : Nat) (f : Task → Task)
    (hpres : ∀ u, (f u).id = u.id) (hne : id' ≠ id) :
    lookupTask (updateTask s id f) id' = lookupTask s id' := by
  have hg : ∀ u, ((fun t => if t.id == id then f t else t) u).id = u.id := by
    intro u
    by_cases hc : u.id = id <;> simp [hc, hpres u]
  show (s.tasks.map (fun t => if t.id == id then f t else t)).find? (fun t => t.id == id')
    = s.tasks.find? (fun t => t.id == id')
  rw [find?_id_map s.tasks id' _ hg]
  cases hf : s.tasks.find? (fun t => t.id == id') with
  | none => rfl
  | some u =>
    have hu : u.id = id' := by simpa using List.find?_some hf
    simp [hu, hne]

theorem find?_append_some {l₁ l₂ : List Task} {p : Task → Bool} {a : Task}
    (h : l₁.find? p = some a) : (l₁ ++ l₂).find? p = some a := by
  induction l₁ with
  | nil => simp [List.find?] at h
  | cons c cs ih =>
    cases hb : p c with
    | true =>
      simp only [List.find?, hb] at h
      simp only [List.cons_append, List.find?, hb]
      exact h
    | false =>
      simp only [List.find?, hb] at h
      simp only [List.cons_append, List.find?, hb]
      exact ih h

theorem lookup_submit (s : OrchState) (now : Nat) (d : String)
    (pref : Option AgentType) {id : Nat} {t : Task}
    (hl : lookupTask s id = some t) :
    lookupTask (submit_task s now d pref).1 id = some t := by
  show (s.tasks ++ [submittedTask s.nextId now d pref]).find? (fun u => u.id == id) = some t
  exact find?_append_some hl

-- ### Reachability invariants

theorem unassigned_pending_invariant (s : OrchState)
    (h : ReachG completeExecutingGuard s) :
    ∀ t ∈ s.tasks, t.assigned_agent_id = none → t.status = .Pending := by
  induction h with
  | init => intro t ht; simp [initState] at ht
  | step hr hst ih =>
    rename_i sA sB
    cases hst with
    | register p =>
      intro t ht
      rw [register_agent_tasks] at ht
      exact ih t ht
    | submit now d pref =>
      intro t ht hass
      rw [submit_task_tasks] at ht
      rcases List.mem_append.mp ht with h1 | h2
      · exact ih t h1 hass
      · have ht2 : t = submittedTask sA.nextId now d pref := by simpa using h2
        rw [ht2]
        rfl
    | assign now id =>
      intro t ht hass
      rcases assign_task_state sA now id with he | ⟨t0, aid, hl0, ha0, hsel, he⟩
      · rw [he] at ht; exact ih t ht hass
      · rw [he] at ht
        rcases mem_updateTask ht with ⟨u, hu, ⟨huid, rfl⟩ | rfl⟩
        · simp [assignUpd, Task.addLog] at hass
        · exact ih t hu hass
    | dispatch =>
      intro t ht hass
      rw [dispatch_cycle_tasks] at ht
      rcases List.mem_map.mp ht with ⟨u, hu, heq⟩
      subst heq
      rcases dispatchMark_spec u with ⟨hstat0, hass0, heq2⟩ | heq2
      · rw [heq2] at hass
        exact absurd hass hass0
      · rw [heq2] at hass ⊢
        exact ih u hu hass
    | complete now id r hg =>
      intro t ht hass
      rcases complete_task_state sA now id r with he | he
      · rw [he] at ht; exact ih t ht hass
      · rw [he] at ht
        rcases mem_updateTask ht with ⟨u, hu, ⟨huid, rfl⟩ | rfl⟩
        · have hexec : u.status = .Executing := hg u hu huid
          have hpend : u.status = .Pending := ih u hu hass
          rw [hpend] at hexec
          cases hexec
        · exact ih t hu hass

/-- C10: under arbitrary sequences of orchestrator operations (the
strategies touch the store only through these operations), no stored task
ever has status `Failed`, and every `complete_task` leaves the addressed
task `Completed`. -/
theorem failed_unreachable :
    (∀ s, ReachG completeAnyGuard s → ∀ t ∈ s.tasks, t.status ≠ .Failed)
    ∧ (∀ (s : OrchState) (now id : Nat) (r : String) (t : Task),
        lookupTask (complete_task s now id r).1 id = some t →
        t.status = .Completed) := by
  constructor
  · intro s hs
    induction hs with
    | init => intro t ht; simp [initState] at ht
    | step hr hst ih =>
      rename_i sA sB
      cases hst with
      | register p =>
        intro t ht
        rw [register_agent_tasks] at ht
        exact ih t ht
      | submit now d pref =>
        intro t ht
        rw [submit_task_tasks] at ht
        rcases List.mem_append.mp ht with h1 | h2
        · exact ih t h1
        · have ht2 : t = submittedTask sA.nextId now d pref := by simpa using h2
          rw [ht2]
          simp [submittedTask]
      | assign now id =>
        intro t ht
        rcases assign_task_state sA now id with he | ⟨t0, aid, hl0, ha0, hsel, he⟩
        · rw [he] at ht; exact ih t ht
        · rw [he] at ht
          rcases mem_updateTask ht with ⟨u, hu, ⟨huid, rfl⟩ | rfl⟩
          · simp [assignUpd, Task.addLog]
          · exact ih t hu
      | dispatch =>
        intro t ht
        rw [dispatch_cycle_tasks] at ht
        rcases List.mem_map.mp ht with ⟨u, hu, heq⟩
        subst heq
        rcases dispatchMark_spec u with ⟨hstat0, hass0, heq2⟩ | heq2
        · rw [heq2]
          simp
        · rw [heq2]
          exact ih u hu
      | complete now id r hg =>
        intro t ht
        rcases complete_task_state sA now id r with he | he
        · rw [he] at ht; exact ih t ht
        · rw [he] at ht
          rcases mem_updateTask ht with ⟨u, hu, ⟨huid, rfl⟩ | rfl⟩
          · simp [completeUpd, Task.addLog]
          · exact ih t hu
  · intro s now id r t h
    exact (complete_task_sets_completed s now id r t h).1

/-- Witness for C10: after register and submit, the stored task is not
`Failed`; a concrete completion yields `Completed`. -/
theorem failed_unreachable_witness :
    tSubEx.status ≠ .Failed ∧ taskCompletedEx.status = .Completed :=
  ⟨failed_unreachable.1 sSubEx
      (ReachG.step (ReachG.step ReachG.init (StepG.register initState researcherEx))
        (StepG.submit sRegEx 0 "d" none))
      tSubEx (by decide),
   failed_unreachable.2 stateAssignedEx 9 0 "res" taskCompletedEx (by decide)⟩

/-- C5 counterexample: `complete_task` is callable on a never-assigned
`Pending` task (its public signature allows any id), producing a reachable
state holding a `Completed` task with `assigned_agent_id = none`; the
claimed invariant fails on arbitrary operation sequences. -/
theorem assigned_invariant_cex :
    ¬ (∀ s, ReachG completeAnyGuard s →
        ∀ t ∈ s.tasks, t.status ≠ .Pending → t.assigned_agent_id ≠ none) := by
  intro hcl
  have hr : ReachG completeAnyGuard sCompletedNoAgentEx :=
    ReachG.step (ReachG.step ReachG.init (StepG.submit initState 0 "d" none))
      (StepG.complete sPendingEx 5 0 "r" trivial)
  exact hcl sCompletedNoAgentEx hr tCompletedNoAgentEx (by decide) (by decide) rfl

/-- C5 (amended): restricted to sequences in which `complete_task` is only
invoked on ids whose stored task already has an assigned agent — which is
the discipline of the code's only internal caller, `process_single_task` —
every stored task whose status is not `Pending` has an assigned agent. -/
theorem assigned_invariant (s : OrchState)
    (h : ReachG completeAssignedGuard s) :
    ∀ t ∈ s.tasks, t.status ≠ .Pending → t.assigned_agent_id ≠ none := by
  induction h with
  | init => intro t ht; simp [initState] at ht
  | step hr hst ih =>
    rename_i sA sB
    cases hst with
    | register p =>
      intro t ht
      rw [register_agent_tasks] at ht
      exact ih t ht
    | submit now d pref =>
      intro t ht hstat
      rw [submit_task_tasks] at ht
      rcases List.mem_append.mp ht with h1 | h2
      · exact ih t h1 hstat
      · have ht2 : t = submittedTask sA.nextId now d pref := by simpa using h2
        rw [ht2] at hstat
        exact absurd rfl hstat
    | assign now id =>
      intro t ht hstat
      rcases assign_task_state sA now id with he | ⟨t0, aid, hl0, ha0, hsel, he⟩
      · rw [he] at ht; exact ih t ht hstat
      · rw [he] at ht
        rcases mem_updateTask ht with ⟨u, hu, ⟨huid, rfl⟩ | rfl⟩
        · simp [assignUpd, Task.addLog]
        · exact ih t hu hstat
    | dispatch =>
      intro t ht hstat
      rw [dispatch_cycle_tasks] at ht
      rcases List.mem_map.mp ht with ⟨u, hu, heq⟩
      subst heq
      rcases dispatchMark_spec u with ⟨hstat0, hass0, heq2⟩ | heq2
      · rw [heq2]
        exact hass0
      · rw [heq2] at hstat ⊢
        exact ih u hu hstat
    | complete now id r hg =>
      intro t ht hstat
      rcases complete_task_state sA now id r with he | he
      · rw [he] at ht; exact ih t ht hstat
      · rw [he] at ht
        rcases mem_updateTask ht with ⟨u, hu, ⟨huid, rfl⟩ | rfl⟩
        · exact hg u hu huid
        · exact ih t hu hstat

/-- Witness for C5 (amended): the register/submit/assign chain reaches a
state whose `InProgress` task indeed has an assigned agent. -/
theorem assigned_invariant_witness : tAsgEx.assigned_agent_id ≠ none :=
  assigned_invariant sAsgEx
    (ReachG.step
      (ReachG.step (ReachG.step ReachG.init (StepG.register initState researcherEx))
        (StepG.submit sRegEx 0 "d" none))
      (StepG.assign sSubEx 3 0))
    tAsgEx (by decide) (by decide)

/-- C6 counterexample: `complete_task` on a still-`Pending` task performs
the transition `Pending` to `Completed`, which is not among the claimed
edges; the claimed transition discipline fails over arbitrary operation
sequences. -/
theorem status_edges_cex :
    ¬ (∀ s s', ReachG completeAnyGuard s → StepG completeAnyGuard s s' →
        ∀ (id : Nat) (t t' : Task), lookupTask s id = some t →
        lookupTask s' id = some t' →
        t.status = t'.status ∨ statusEdge t.status t'.status) := by
  intro hcl
  have hr : ReachG completeAnyGuard sPendingEx :=
    ReachG.step ReachG.init (StepG.submit initState 0 "d" none)
  have hst : StepG completeAnyGuard sPendingEx sCompletedNoAgentEx :=
    StepG.complete sPendingEx 5 0 "r" trivial
  have hcon := hcl sPendingEx sCompletedNoAgentEx hr hst 0
    tPendingEx tCompletedNoAgentEx (by decide) (by decide)
  exact absurd hcon (by decide)

/-- C6 (amended): restricted to sequences in which `complete_task` is only
invoked on ids whose stored task is `Executing` — the discipline of the
code's only internal caller, `process_single_task`, which completes only
tasks the dispatch loop launched — every operation either leaves a task's
status unchanged or moves it along one of the edges
`Pending` to `InProgress`, `InProgress` to `Executing`, `Executing` to
`Completed`, `Executing` to `Failed`. -/
theorem status_edges (s s' : OrchState)
    (hr : ReachG completeExecutingGuard s)
    (hst : StepG completeExecutingGuard s s')
    (id : Nat) (t t' : Task)
    (hl : lookupTask s id = some t) (hl' : lookupTask s' id = some t') :
    t.status = t'.status ∨ statusEdge t.status t'.status := by
  cases hst with
  | register p =>
    have hsame : lookupTask (register_agent s p) id = lookupTask s id := by
      show (register_agent s p).tasks.find? (fun u => u.id == id)
        = s.tasks.find? (fun u => u.id == id)
      rw [register_agent_tasks]
    rw [hsame, hl] at hl'
    cases hl'
    exact Or.inl rfl
  | submit now d pref =>
    rw [lookup_submit s now d pref hl] at hl'
    cases hl'
    exact Or.inl rfl
  | assign now2 id2 =>
    rcases assign_task_state s now2 id2 with he | ⟨t0, aid, hl0, ha0, hsel, he⟩
    · rw [he, hl] at hl'
      cases hl'
      exact Or.inl rfl
    · by_cases hid : id = id2
      · subst hid
        rw [he, lookup_updateTask s id (assignUpd now2 aid) (fun u => rfl), hl] at hl'
        simp only [Option.map_some'] at hl'
        cases hl'
        have heqt : t = t0 := by
          rw [hl] at hl0
          exact Option.some.inj hl0
        have hmem : t ∈ s.tasks := List.mem_of_find?_eq_some hl
        have hpend : t.status = .Pending :=
          unassigned_pending_invariant s hr t hmem (by rw [heqt]; exact ha0)
        right
        exact Or.inl ⟨hpend, rfl⟩
      · rw [he, lookup_updateTask_ne s id2 id (assignUpd now2 aid) (fun u => rfl) hid, hl] at hl'
        cases hl'
        exact Or.inl rfl
  | dispatch =>
    rw [lookup_dispatch s id, hl] at hl'
    simp only [Option.map_some'] at hl'
    cases hl'
    rcases dispatchMark_spec t with ⟨hstat0, hass0, heq2⟩ | heq2
    · rw [heq2]
      right
      exact Or.inr (Or.inl ⟨hstat0, rfl⟩)
    · rw [heq2]
      exact Or.inl rfl
  | complete now2 id2 r hg =>
    rcases complete_task_state s now2 id2 r with he | he
    · rw [he, hl] at hl'
      cases hl'
      exact Or.inl rfl
    · by_cases hid : id = id2
      · subst hid
        rw [he, lookup_updateTask s id (completeUpd now2 r) (fun u => rfl), hl] at hl'
        simp only [Option.map_some'] at hl'
        cases hl'
        have hmem : t ∈ s.tasks := List.mem_of_find?_eq_some hl
        have hidt : t.id = id := by simpa using List.find?_some hl
        have hexec : t.status = .Executing := hg t hmem hidt
        right
        exact Or.inr (Or.inr (Or.inl ⟨hexec, rfl⟩))
      · rw [he, lookup_updateTask_ne s id2 id (completeUpd now2 r) (fun u => rfl) hid, hl] at hl'
        cases hl'
        exact Or.inl rfl

/-- Witness for C6 (amended): one dispatch cycle moves the assigned task
along `InProgress` to `Executing`. -/
theorem status_edges_witness :
    tAsgEx.status = tDispEx.status ∨ statusEdge tAsgEx.status tDispEx.status :=
  status_edges sAsgEx sDispEx
    (ReachG.step
      (ReachG.step (ReachG.step ReachG.init (StepG.register initState researcherEx))
        (StepG.submit sRegEx 0 "d" none))
      (StepG.assign sSubEx 3 0))
    (StepG.dispatch sAsgEx) 0 tAsgEx tDispEx (by decide) (by decide)

-- ### Identifier well-formedness

theorem updateTask_ids (s : OrchState) (id : Nat) (f : Task → Task)
    (hpres : ∀ u, (f u).id = u.id) :
    (updateTask s id f).tasks.map Task.id = s.tasks.map Task.id := by
  show (s.tasks.map fun t => if t.id == id then f t else t).map Task.id
    = s.tasks.map Task.id
  rw [List.map_map]
  apply List.map_congr_left
  intro u hu
  by_cases hc : u.id = id <;> simp [Function.comp, hc, hpres u]

theorem reach_idsWF (g : OrchState → Nat → Prop) (s : OrchState)
    (h : ReachG g s) : idsWF s := by
  induction h with
  | init => exact ⟨by intro t ht; simp [initState] at ht, by simp [initState]⟩
  | step hr hst ih =>
    rename_i sA sB
    rcases ih with ⟨hbound, hnodup⟩
    cases hst with
    | register p =>
      refine ⟨?_, ?_⟩
      · intro t ht
        rw [register_agent_tasks] at ht
        rw [register_agent_nextId]
        exact hbound t ht
      · rw [register_agent_tasks]
        exact hnodup
    | submit now d pref =>
      refine ⟨?_, ?_⟩
      · intro t ht
        rw [submit_task_tasks] at ht
        show t.id < sA.nextId + 1
        rcases List.mem_append.mp ht with h1 | h2
        · exact Nat.lt_succ_of_lt (hbound t h1)
        · have ht2 : t = submittedTask sA.nextId now d pref := by simpa using h2
          rw [ht2]
          exact Nat.lt_succ_self _
      · rw [submit_task_tasks, List.map_append, List.nodup_append]
        refine ⟨hnodup, by simp, ?_⟩
        intro a ha hb
        rcases List.mem_map.mp ha with ⟨u, hu, huid⟩
        simp [submittedTask] at hb
        have hlt := hbound u hu
        omega
    | assign now id =>
      rcases assign_task_state sA now id with he | ⟨t0, aid, hl0, ha0, hsel, he⟩
      · rw [he]; exact ⟨hbound, hnodup⟩
      · rw [he]
        refine ⟨?_, ?_⟩
        · intro t ht
          rcases mem_updateTask ht with ⟨u, hu, ⟨huid, heq⟩ | heq⟩
          · subst heq
            show u.id < sA.nextId
            exact hbound u hu
          · subst heq
            exact hbound _ hu
        · rw [updateTask_ids sA id (assignUpd now aid) (fun u => rfl)]
          exact hnodup
    | dispatch =>
      refine ⟨?_, ?_⟩
      · intro t ht
        rw [dispatch_cycle_tasks] at ht
        rcases List.mem_map.mp ht with ⟨u, hu, heq⟩
        subst heq
        show (dispatchMark u).id < sA.nextId
        rw [dispatchMark_id]
        exact hbound u hu
      · show ((sA.tasks.map dispatchMark).map Task.id).Nodup
        rw [List.map_map]
        have hcomp : (Task.id ∘ dispatchMark) = Task.id := funext dispatchMark_id
        rw [hcomp]
        exact hnodup
    | complete now id r hg =>
      rcases complete_task_state sA now id r with he | he
      · rw [he]; exact ⟨hbound, hnodup⟩
      · rw [he]
        refine ⟨?_, ?_⟩
        · intro t ht
          rcases mem_updateTask ht with ⟨u, hu, ⟨huid, heq⟩ | heq⟩
          · subst heq
            show u.id < sA.nextId
            exact hbound u hu
          · subst heq
            exact hbound _ hu
        · rw [updateTask_ids sA id (completeUpd now r) (fun u => rfl)]
          exact hnodup

/-- C8: in any reachable state, `submit_task` mints an id distinct from
every stored task's id, appends (without touching any stored task) a new
task that is `Pending`, unassigned, resultless, and carries exactly the one
`SUBMITTED` audit entry; afterwards all stored ids are still pairwise
distinct, so N submissions yield N distinct ids with no lost writes. -/
theorem submit_task_spec (s : OrchState) (h : ReachG completeAnyGuard s)
    (now : Nat) (d : String) (pref : Option AgentType) :
    (submit_task s now d pref).2 ∉ s.tasks.map Task.id
    ∧ (submit_task s now d pref).1.tasks
        = s.tasks ++ [submittedTask s.nextId now d pref]
    ∧ (submittedTask s.nextId now d pref).status = .Pending
    ∧ (submittedTask s.nextId now d pref).assigned_agent_id = none
    ∧ (submittedTask s.nextId now d pref).result = none
    ∧ (submittedTask s.nextId now d pref).audit_log
        = [⟨now, none, "SUBMITTED", "Task submitted: " ++ d⟩]
    ∧ ((submit_task s now d pref).1.tasks.map Task.id).Nodup := by
  have hwf := reach_idsWF completeAnyGuard s h
  have hwf2 := reach_idsWF completeAnyGuard _
    (ReachG.step h (StepG.submit s now d pref))
  refine ⟨?_, rfl, rfl, rfl, rfl, rfl, hwf2.2⟩
  intro hmem
  rcases List.mem_map.mp hmem with ⟨u, hu, huid⟩
  have huid2 : u.id = s.nextId := huid
  have hlt := hwf.1 u hu
  omega

/-- Witness for C8 from the empty state. -/
theorem submit_task_spec_witness :
    (submit_task initState 0 "w" none).2 ∉ initState.tasks.map Task.id
    ∧ ((submit_task initState 0 "w" none).1.tasks.map Task.id).Nodup :=
  ⟨(submit_task_spec initState ReachG.init 0 "w" none).1,
   (submit_task_spec initState ReachG.init 0 "w" none).2.2.2.2.2.2⟩

/-- C4 counterexample: the dispatch loop's `InProgress` to `Executing`
transition appends no audit entry, so the contract "every mutating
operation appends exactly one audit entry" fails at a reachable state with
an assigned `InProgress` task. -/
theorem audit_one_entry_cex : ¬ auditOneEntryClaim := by
  intro hcl
  rcases hcl.2.2.1 sAsgEx 0 tAsgEx (by decide) (by decide) (by decide)
    with ⟨t', ht', hlen⟩
  have ht2 : lookupTask (dispatch_cycle sAsgEx).1 0 = some tDispEx := by decide
  rw [ht2] at ht'
  cases ht'
  exact absurd hlen (by decide)

/-- C4 (amended): submission, successful assignment, and completion each
append exactly one audit entry (`SUBMITTED`, `ASSIGNED`, `COMPLETED`
respectively) to the mutated task, but the dispatch loop's `InProgress` to
`Executing` transition appends none — every task's audit log is unchanged
by a dispatch cycle. -/
theorem audit_log_per_operation :
    (∀ (s : OrchState) (now : Nat) (d : String) (pref : Option AgentType),
      (submittedTask s.nextId now d pref).audit_log
        = [⟨now, none, "SUBMITTED", "Task submitted: " ++ d⟩])
    ∧ (∀ (s : OrchState) (now id : Nat) (t0 : Task) (aid : String),
        lookupTask s id = some t0 → t0.assigned_agent_id = none →
        (assign_task s now id).2 = .ok aid →
        lookupTask (assign_task s now id).1 id = some (assignUpd now aid t0)
          ∧ (assignUpd now aid t0).audit_log
              = t0.audit_log
                ++ [⟨now, some "system", "ASSIGNED", "Assigned to agent " ++ aid⟩])
    ∧ (∀ (s : OrchState) (id : Nat),
        (lookupTask (dispatch_cycle s).1 id).map (fun t => t.audit_log)
          = (lookupTask s id).map (fun t => t.audit_log))
    ∧ (∀ (s : OrchState) (now id : Nat) (r : String) (t0 : Task),
        lookupTask s id = some t0 →
        lookupTask (complete_task s now id r).1 id = some (completeUpd now r t0)
          ∧ (completeUpd now r t0).audit_log
              = t0.audit_log
                ++ [⟨now, t0.assigned_agent_id, "COMPLETED",
                     "Task completed with result: " ++ r⟩]) := by
  refine ⟨fun s now d pref => rfl, ?_, ?_, ?_⟩
  · intro s now id t0 aid hl ha hok
    cases hsel : selectAgent s.agents t0.preferred_agent_type with
    | none =>
      simp only [assign_task, hl, ha, hsel] at hok
      simp at hok
    | some aid2 =>
      have haid : aid2 = aid := by
        simp only [assign_task, hl, ha, hsel] at hok
        simpa using hok
      subst haid
      refine ⟨?_, rfl⟩
      have he : (assign_task s now id).1 = updateTask s id (assignUpd now aid2) := by
        simp [assign_task, hl, ha, hsel]
      rw [he, lookup_updateTask s id (assignUpd now aid2) (fun u => rfl), hl]
      rfl
  · intro s id
    rw [lookup_dispatch s id]
    cases hf : lookupTask s id with
    | none => rfl
    | some u => simp [dispatchMark_audit u]
  · intro s now id r t0 hl
    refine ⟨?_, rfl⟩
    simp only [complete_task, hl]
    rw [lookup_updateTask s id (completeUpd now r) (fun u => rfl), hl]
    rfl

/-- Witness for C4 (amended) along the register/submit/assign chain. -/
theorem audit_log_per_operation_witness :
    (submittedTask initState.nextId 0 "w" none).audit_log
      = [⟨0, none, "SUBMITTED", "Task submitted: " ++ "w"⟩]
    ∧ (lookupTask (assign_task sSubEx 3 0).1 0 = some (assignUpd 3 "r1" tSubEx)
        ∧ (assignUpd 3 "r1" tSubEx).audit_log
            = tSubEx.audit_log
              ++ [⟨3, some "system", "ASSIGNED", "Assigned to agent " ++ "r1"⟩])
    ∧ (lookupTask (dispatch_cycle sAsgEx).1 0).map (fun t => t.audit_log)
        = (lookupTask sAsgEx 0).map (fun t => t.audit_log)
    ∧ (lookupTask (complete_task sSubEx 5 0 "r").1 0 = some (completeUpd 5 "r" tSubEx)
        ∧ (completeUpd 5 "r" tSubEx).audit_log
            = tSubEx.audit_log
              ++ [⟨5, tSubEx.assigned_agent_id, "COMPLETED",
                   "Task completed with result: " ++ "r"⟩]) :=
  ⟨audit_log_per_operation.1 initState 0 "w" none,
   audit_log_per_operation.2.1 sSubEx 3 0 tSubEx "r1" (by decide) rfl rfl,
   audit_log_per_operation.2.2.1 sAsgEx 0,
   audit_log_per_operation.2.2.2 sSubEx 5 0 "r" tSubEx (by decide)⟩

-- ### Ingestor lemmas

theorem splitFirst_append_sep (sep : Char) (a rest : List Char)
    (ha : sep ∉ a) :
    splitFirst sep (a ++ sep :: rest) = (a, some rest) := by
  induction a with
  | nil => simp [splitFirst]
  | cons c cs ih =>
    have hc : ¬ c = sep := fun h => ha (List.mem_cons.mpr (Or.inl h.symm))
    have hrest : sep ∉ cs := fun h => ha (List.mem_cons.mpr (Or.inr h))
    simp [splitFirst, hc, ih hrest]

theorem isPrefixOf_append_self (l r : List Char) :
    l.isPrefixOf (l ++ r) = true := by
  induction l with
  | nil => simp
  | cons c cs ih => simp [List.isPrefixOf, ih]

theorem chunksOfAux_join {α : Type _} (n : Nat) (hn : 0 < n) :
    ∀ (fuel : Nat) (l : List α), l.length ≤ fuel →
      (chunksOfAux n fuel l).flatten = l := by
  intro fuel
  induction fuel with
  | zero =>
    intro l hl
    have h0 : l = [] := List.length_eq_zero.mp (Nat.le_zero.mp hl)
    subst h0
    rfl
  | succ m ih =>
    intro l hl
    cases l with
    | nil => rfl
    | cons c cs =>
      show ((c :: cs).take n :: chunksOfAux n m ((c :: cs).drop n)).flatten = c :: cs
      have hlen : ((c :: cs).drop n).length ≤ m := by
        rw [List.length_drop]
        have hl2 : cs.length + 1 ≤ m + 1 := by simpa using hl
        simp only [List.length_cons]
        omega
      simp only [List.flatten_cons]
      rw [ih ((c :: cs).drop n) hlen]
      exact List.take_append_drop n (c :: cs)

theorem chunksOfAux_mem {α : Type _} (n : Nat) (hn : 0 < n) :
    ∀ (fuel : Nat) (l : List α) (c : List α), c ∈ chunksOfAux n fuel l →
      c ≠ [] ∧ c.length ≤ n := by
  intro fuel
  induction fuel with
  | zero =>
    intro l c hc
    cases l with
    | nil => simp [chunksOfAux] at hc
    | cons x xs => simp [chunksOfAux] at hc
  | succ m ih =>
    intro l c hc
    cases l with
    | nil => simp [chunksOfAux] at hc
    | cons x xs =>
      simp only [chunksOfAux] at hc
      rcases List.mem_cons.mp hc with hc1 | hc2
      · subst hc1
        obtain ⟨k, rfl⟩ : ∃ k, n = k + 1 := ⟨n - 1, by omega⟩
        refine ⟨by simp, ?_⟩
        rw [List.length_take]
        exact Nat.min_le_left _ _
      · exact ih _ c hc2

theorem chunksOfAux_dropLast {α : Type _} (n : Nat) (hn : 0 < n) :
    ∀ (fuel : Nat) (l : List α) (c : List α),
      c ∈ (chunksOfAux n fuel l).dropLast → c.length = n := by
  intro fuel
  induction fuel with
  | zero =>
    intro l c hc
    cases l with
    | nil => simp [chunksOfAux] at hc
    | cons x xs => simp [chunksOfAux] at hc
  | succ m ih =>
    intro l c hc
    cases l with
    | nil => simp [chunksOfAux] at hc
    | cons x xs =>
      simp only [chunksOfAux] at hc
      cases hrest : chunksOfAux n m ((x :: xs).drop n) with
      | nil =>
        rw [hrest] at hc
        simp at hc
      | cons r rs =>
        rw [hrest] at hc
        rw [List.dropLast_cons₂] at hc
        rcases List.mem_cons.mp hc with hc1 | hc2
        · subst hc1
          have hne : (x :: xs).drop n ≠ [] := by
            intro hdrop
            rw [hdrop] at hrest
            cases m <;> simp [chunksOfAux] at hrest
          have hlt : n < (x :: xs).length := by
            by_contra hge
            exact hne (List.drop_eq_nil_of_le (by omega))
          rw [List.length_take]
          exact Nat.min_eq_left (Nat.le_of_lt hlt)
        · rw [← hrest] at hc2
          exact ih _ c hc2

theorem chunksOf_join {α : Type _} (n : Nat) (hn : 0 < n) (l : List α) :
    (chunksOf n l).flatten = l :=
  chunksOfAux_join n hn l.length l (Nat.le_refl _)

theorem chunksOf_mem {α : Type _} (n : Nat) (hn : 0 < n) (l c : List α)
    (hc : c ∈ chunksOf n l) : c ≠ [] ∧ c.length ≤ n :=
  chunksOfAux_mem n hn l.length l c hc

theorem chunksOf_dropLast {α : Type _} (n : Nat) (hn : 0 < n) (l c : List α)
    (hc : c ∈ (chunksOf n l).dropLast) : c.length = n :=
  chunksOfAux_dropLast n hn l.length l c hc

/-- C9 counterexample: the Ingestor's optional description encoding tag is
`INGEST_FILE|`, not `SOURCE|`: on `SOURCE|doc1|hello` the code does not
parse out the id and content, but treats the whole description as content
with doc id `unknown`. -/
theorem ingestor_source_tag_cex :
    ingestor_parse "SOURCE|doc1|hello" ≠ ("doc1", "hello")
    ∧ ingestor_parse "SOURCE|doc1|hello" = ("unknown", "SOURCE|doc1|hello") :=
  ⟨by decide, by decide⟩

/-- C9 (amended): the Ingestor arm parses an optional
`INGEST_FILE|<id>|<content>` encoding out of the description (any
description not carrying that tag maps to doc id `unknown` with the whole
description as content); content strictly larger than 3000 bytes is split
into 2000-byte chunks (every chunk nonempty and at most 2000 bytes, all but
the last exactly 2000 bytes, and concatenating back to the original bytes),
smaller content is processed as a single chunk; and the returned result is
the report naming the parsed doc id, the aggregate entity and relationship
counts, and the chunk count. -/
theorem ingestor_spec :
    (∀ id content : String, '|' ∉ id.data →
      ingestor_parse ("INGEST_FILE|" ++ id ++ "|" ++ content) = (id, content))
    ∧ (∀ d : String, "INGEST_FILE|".data.isPrefixOf d.data = false →
        ingestor_parse d = ("unknown", d))
    ∧ (∀ bs : List UInt8, 3000 < bs.length →
        ingestor_chunks bs = chunksOf 2000 bs)
    ∧ (∀ bs : List UInt8, bs.length ≤ 3000 → ingestor_chunks bs = [bs])
    ∧ (∀ bs : List UInt8, (chunksOf 2000 bs).flatten = bs
        ∧ (∀ c ∈ chunksOf 2000 bs, c ≠ [] ∧ c.length ≤ 2000)
        ∧ (∀ c ∈ (chunksOf 2000 bs).dropLast, c.length = 2000))
    ∧ (∀ (hasGraph : Bool) (llm : Nat → String) (d : String),
        ∃ totE totR, ingestor_logic hasGraph llm d
          = ingestor_result (ingestor_parse d).1 totE totR
              (ingestor_chunks (strBytes (ingestor_parse d).2)).length) := by
  refine ⟨?_, ?_, ?_, ?_, ?_, ?_⟩
  · intro id content hid
    have h1 : ("INGEST_FILE|" : String).data = "INGEST_FILE".data ++ ['|'] := rfl
    have hdata : ("INGEST_FILE|" ++ id ++ "|" ++ content).data
        = "INGEST_FILE".data ++ '|' :: (id.data ++ '|' :: content.data) := by
      have h2 : ("|" : String).data = ['|'] := rfl
      simp only [String.data_append, h1, h2, List.append_assoc,
        List.singleton_append, List.cons_append, List.nil_append]
    have hpre : "INGEST_FILE|".data.isPrefixOf
        ("INGEST_FILE|" ++ id ++ "|" ++ content).data = true := by
      rw [hdata, h1, List.append_cons ("INGEST_FILE".data) '|']
      rw [← h1]
      exact isPrefixOf_append_self _ _
    have hsplit : splitn3 '|' ("INGEST_FILE|" ++ id ++ "|" ++ content).data
        = ["INGEST_FILE".data, id.data, content.data] := by
      rw [hdata]
      simp only [splitn3,
        splitFirst_append_sep '|' "INGEST_FILE".data
          (id.data ++ '|' :: content.data) (by decide),
        splitFirst_append_sep '|' id.data content.data hid]
    unfold ingestor_parse
    rw [hpre, hsplit]
    rfl
  · intro d hnp
    unfold ingestor_parse
    rw [hnp]
    simp
  · intro bs h
    unfold ingestor_chunks
    rw [if_pos h]
  · intro bs h
    unfold ingestor_chunks
    rw [if_neg (Nat.not_lt.mpr h)]
  · intro bs
    exact ⟨chunksOf_join 2000 (by omega) bs,
      fun c hc => chunksOf_mem 2000 (by omega) bs c hc,
      fun c hc => chunksOf_dropLast 2000 (by omega) bs c hc⟩
  · intro hasGraph llm d
    cases hasGraph with
    | false => exact ⟨0, 0, rfl⟩
    | true =>
      exact ⟨(ingestor_totals llm
          (ingestor_chunks (strBytes (ingestor_parse d).2)).length).1,
        (ingestor_totals llm
          (ingestor_chunks (strBytes (ingestor_parse d).2)).length).2, rfl⟩

/-- Witness for C9 (amended) at concrete inputs, including a 3001-byte
content hitting the chunking threshold. -/
theorem ingestor_spec_witness :
    ingestor_parse ("INGEST_FILE|" ++ "doc1" ++ "|" ++ "hello") = ("doc1", "hello")
    ∧ ingestor_parse "plain text" = ("unknown", "plain text")
    ∧ ingestor_chunks (List.replicate 3001 (0 : UInt8))
        = chunksOf 2000 (List.replicate 3001 (0 : UInt8))
    ∧ ingestor_chunks [0, 1] = [[0, 1]]
    ∧ (chunksOf 2000 ([] : List UInt8)).flatten = []
    ∧ (∃ totE totR, ingestor_logic true (fun _ => "ENTITY|a|b|c") "x"
        = ingestor_result (ingestor_parse "x").1 totE totR
            (ingestor_chunks (strBytes (ingestor_parse "x").2)).length) :=
  ⟨ingestor_spec.1 "doc1" "hello" (by decide),
   ingestor_spec.2.1 "plain text" (by decide),
   ingestor_spec.2.2.1 (List.replicate 3001 (0 : UInt8))
     (by rw [List.length_replicate]; omega),
   ingestor_spec.2.2.2.1 [0, 1] (by decide),
   (ingestor_spec.2.2.2.2.1 ([] : List UInt8)).1,
   ingestor_spec.2.2.2.2.2 true (fun _ => "ENTITY|a|b|c") "x"⟩

end BrainVault
